import Mathlib

/-!
Verification of the tracing log viewer's core parsing and colorizing routines.

A line of input is modelled as a `List Char` (Rust `&str` holds Unicode scalar
values; byte positions are recovered through each character's UTF-8 width).
Rust string slicing `&line[a..b]` panics when `a > b`, when `b` exceeds the
byte length, or when `a` or `b` is not a character boundary; `byteSlice`
returns `none` exactly in those cases.  Fallible Rust functions returning
`Option` are modelled with an explicit result type that distinguishes a
returned `None` (`noParse`) from a panic (`panicked`).
-/

set_option autoImplicit false

/-- UTF-8 width in bytes of one Unicode scalar value (Rust `char::len_utf8`). -/
def charSize (c : Char) : Nat :=
  if c.toNat < 128 then 1
  else if c.toNat < 2048 then 2
  else if c.toNat < 65536 then 3
  else 4

/-- Byte length of a line, as Rust `str::len` reports it. -/
def byteLen : List Char → Nat
  | [] => 0
  | c :: cs => charSize c + byteLen cs

/-- Drop the first `n` bytes of a line; `none` when `n` is past the end or
falls inside a multi-byte character. -/
def dropBytes : List Char → Nat → Option (List Char)
  | l, 0 => some l
  | [], _ + 1 => none
  | c :: cs, n + 1 =>
    if charSize c ≤ n + 1 then dropBytes cs (n + 1 - charSize c) else none

/-- Take the first `n` bytes of a line; `none` when `n` is past the end or
falls inside a multi-byte character. -/
def takeBytes : List Char → Nat → Option (List Char)
  | _, 0 => some []
  | [], _ + 1 => none
  | c :: cs, n + 1 =>
    if charSize c ≤ n + 1 then (takeBytes cs (n + 1 - charSize c)).map (c :: ·) else none

/-- Rust string slice `&line[a..b]`: `none` models the slicing panic. -/
def byteSlice (l : List Char) (a b : Nat) : Option (List Char) :=
  if a ≤ b then (dropBytes l a).bind (fun t => takeBytes t (b - a)) else none

/-- Rust `str::char_indices`: each character paired with its byte offset. -/
def charIndicesAux : List Char → Nat → List (Nat × Char)
  | [], _ => []
  | c :: cs, off => (off, c) :: charIndicesAux cs (off + charSize c)

def charIndices (l : List Char) : List (Nat × Char) :=
  charIndicesAux l 0

/-- Starting byte offsets of all maximal runs of consecutive `' '` characters. -/
def runStartsAux : List (Nat × Char) → Bool → List Nat
  | [], _ => []
  | (i, c) :: rest, prevWasSpace =>
    if c = ' ' then
      if prevWasSpace then runStartsAux rest true
      else i :: runStartsAux rest true
    else runStartsAux rest false

def runStarts (l : List Char) : List Nat :=
  runStartsAux (charIndices l) false

/-- The `space_indices` loop of `parse_line_from_scratch`: record the start of
each space run, stopping right after the third one is pushed (`count > 2`). -/
def spaceIndicesAux : List (Nat × Char) → Bool → Nat → List Nat
  | [], _, _ => []
  | (i, c) :: rest, prevWasSpace, count =>
    if c = ' ' then
      if prevWasSpace then spaceIndicesAux rest true count
      else if count + 1 > 2 then [i]
      else i :: spaceIndicesAux rest true (count + 1)
    else spaceIndicesAux rest false count

def spaceIndices (l : List Char) : List Nat :=
  spaceIndicesAux (charIndices l) false 0

/-- Rust `char::is_whitespace` (the Unicode White_Space property), used by
`str::trim`. -/
def isRustWhitespace (c : Char) : Bool :=
  (9 ≤ c.toNat && c.toNat ≤ 13) || c.toNat = 32 || c.toNat = 133 || c.toNat = 160 ||
  c.toNat = 5760 || (8192 ≤ c.toNat && c.toNat ≤ 8202) || c.toNat = 8232 ||
  c.toNat = 8233 || c.toNat = 8239 || c.toNat = 8287 || c.toNat = 12288

/-- Rust `str::trim`: strip leading and trailing whitespace. -/
def trimChars (l : List Char) : List Char :=
  ((l.dropWhile isRustWhitespace).reverse.dropWhile isRustWhitespace).reverse

/-- Rust `char::to_ascii_lowercase`, applied characterwise by
`str::to_ascii_lowercase`. -/
def asciiLower (c : Char) : Char :=
  if 65 ≤ c.toNat ∧ c.toNat ≤ 90 then Char.ofNat (c.toNat + 32) else c

inductive LogType where
  | Error
  | Warn
  | Info
  | Debug
  | Trace
deriving DecidableEq

/-- `LogType::as_colour_str`. -/
def LogType.as_colour_str : LogType → List Char
  | .Error => "\x1b[91m".toList
  | .Warn => "\x1b[93m".toList
  | .Info => "\x1b[92m".toList
  | .Debug => "\x1b[94m".toList
  | .Trace => "\x1b[95m".toList

/-- The `match line[..].trim().to_ascii_lowercase().as_str()` block shared
verbatim by both parse functions. -/
def classifyLevel (sub : List Char) : Option LogType :=
  let t := (trimChars sub).map asciiLower
  if t = "error".toList then some .Error
  else if t = "warn".toList then some .Warn
  else if t = "info".toList then some .Info
  else if t = "debug".toList then some .Debug
  else if t = "trace".toList then some .Trace
  else none

structure GeneralLineFormat where
  tz_start : Nat
  tz_end : Nat
  level_start : Nat
  level_end : Nat
  path_start : Nat
deriving DecidableEq

structure LineFormat where
  log_type : LogType
  tz_start : Nat
  tz_end : Nat
  level_start : Nat
  level_end : Nat
  path_start : Nat
  path_end : Nat
deriving DecidableEq

/-- Outcome of a Rust function returning `Option<LineFormat>`: `noParse`
models a returned `None`, `panicked` models a runtime panic (out-of-bounds
`Vec` index or invalid string slice). -/
inductive ParseResult where
  | ok (f : LineFormat)
  | noParse
  | panicked
deriving DecidableEq

/-- `parse_line_from_scratch`.  `space_indices[0]`, `space_indices[1]` and
`space_indices[2]` are unchecked `Vec` indexing, hence `panicked` when the
loop found fewer runs. -/
def parse_line_from_scratch (line : List Char) : ParseResult :=
  if byteLen line < 4 then .noParse
  else
    let si := spaceIndices line
    match si[0]?, si[1]? with
    | some s0, some s1 =>
      match byteSlice line (s0 + 1) s1 with
      | none => .panicked
      | some sub =>
        match classifyLevel sub with
        | none => .noParse
        | some lt =>
          match si[2]? with
          | some s2 =>
            .ok { log_type := lt, tz_start := 0, tz_end := s0 + 1,
                  level_start := s0 + 1, level_end := s1 + 1,
                  path_start := s1 + 1, path_end := s2 + 1 }
          | none => .panicked
    | _, _ => .panicked

/-- Rust `str::find(' ')`: byte offset of the first space, if any. -/
def findSpace : List Char → Option Nat
  | [] => none
  | c :: cs => if c = ' ' then some 0 else (findSpace cs).map (· + charSize c)

/-- `parse_line_path_from_general_format`.  The `?` on `find` is the only
graceful failure besides level classification; both slices can panic. -/
def parse_line_path_from_general_format (line : List Char)
    (general_format : GeneralLineFormat) : ParseResult :=
  match byteSlice line general_format.level_start general_format.level_end with
  | none => .panicked
  | some sub =>
    match classifyLevel sub with
    | none => .noParse
    | some lt =>
      match byteSlice line general_format.path_start (byteLen line) with
      | none => .panicked
      | some tail =>
        match findSpace tail with
        | none => .noParse
        | some off =>
          .ok { log_type := lt, tz_start := general_format.tz_start,
                tz_end := general_format.tz_end,
                level_start := general_format.level_start,
                level_end := general_format.level_end,
                path_start := general_format.path_start,
                path_end := off + general_format.path_start }

def greyCode : List Char := "\x1b[90m".toList

def resetCode : List Char := "\x1b[0m".toList

/-- `colorize_line`; `none` models a slicing panic. -/
def colorize_line (line : List Char) (line_format : LineFormat) : Option (List Char) :=
  (byteSlice line line_format.tz_start line_format.tz_end).bind fun a =>
  (byteSlice line line_format.level_start line_format.level_end).bind fun b =>
  (byteSlice line line_format.path_start line_format.path_end).bind fun c =>
  (byteSlice line line_format.path_end (byteLen line)).bind fun d =>
  some (greyCode ++ a ++ line_format.log_type.as_colour_str ++ b ++ greyCode ++ c
        ++ resetCode ++ d)

def failedParseTag : List Char := "FAILED TO PARSE LINE: ".toList

/-- What `main` does with one processed line: emit a string, or crash. -/
inductive LineOutput where
  | emit (s : List Char)
  | crash
deriving DecidableEq

/-- The `GeneralLineFormat { .. }` record built in `main` when learning. -/
def toGeneral (f : LineFormat) : GeneralLineFormat :=
  { tz_start := f.tz_start, tz_end := f.tz_end, level_start := f.level_start,
    level_end := f.level_end, path_start := f.path_start }

/-- One iteration of `main`'s loop: the state is `general_format`. -/
def processLine (st : Option GeneralLineFormat) (l : List Char) :
    LineOutput × Option GeneralLineFormat :=
  match st with
  | some format =>
    match parse_line_path_from_general_format l format with
    | .ok full_format =>
      match colorize_line l full_format with
      | some s => (.emit s, some format)
      | none => (.crash, some format)
    | .noParse => (.emit (failedParseTag ++ l), some format)
    | .panicked => (.crash, some format)
  | none =>
    match parse_line_from_scratch l with
    | .ok full_format =>
      match colorize_line l full_format with
      | some s => (.emit s, some (toGeneral full_format))
      | none => (.crash, some (toGeneral full_format))
    | .noParse => (.emit (failedParseTag ++ l), none)
    | .panicked => (.crash, none)

/-- `main`'s loop over the whole stream; a crash aborts the run. -/
def runPipeline (st : Option GeneralLineFormat) :
    List (List Char) → List LineOutput × Option GeneralLineFormat
  | [] => ([], st)
  | l :: ls =>
    match processLine st l with
    | (.crash, st') => ([.crash], st')
    | (.emit s, st') =>
      match runPipeline st' ls with
      | (outs, stFinal) => (.emit s :: outs, stFinal)

/-- Scanner state of the ANSI stripper: ordinary text, just after an `ESC`,
or inside a CSI sequence (after `ESC [`). -/
inductive StripState where
  | normal
  | esc
  | code
deriving DecidableEq

/-- State-machine ANSI stripper: inside a CSI sequence (after `ESC [`)
characters up to and including the final `m` are discarded; an `ESC` not
followed by `[` is kept.  This is the observer used to state the round-trip
claims; it is not part of the program. -/
def stripAnsiAux : List Char → StripState → List Char
  | [], .normal => []
  | [], .esc => ['\x1b']
  | [], .code => []
  | c :: cs, .normal =>
    if c = '\x1b' then stripAnsiAux cs .esc else c :: stripAnsiAux cs .normal
  | c :: cs, .esc =>
    if c = '[' then stripAnsiAux cs .code
    else '\x1b' ::
      (if c = '\x1b' then stripAnsiAux cs .esc else c :: stripAnsiAux cs .normal)
  | c :: cs, .code =>
    if c = 'm' then stripAnsiAux cs .normal else stripAnsiAux cs .code

/-- Remove every `ESC [ ... m` ANSI escape sequence. -/
def stripAnsi (l : List Char) : List Char :=
  stripAnsiAux l .normal

/-- `n` is a character boundary of `l` (in range and not inside a character). -/
def ByteBoundary (l : List Char) (n : Nat) : Prop :=
  ∃ pre post, l = pre ++ post ∧ byteLen pre = n

/-- The shape invariant of every `GeneralLineFormat` the pipeline caches. -/
def wfGeneral (gf : GeneralLineFormat) : Prop :=
  gf.tz_start = 0 ∧ gf.tz_end = gf.level_start ∧ gf.level_end = gf.path_start

/-- The offset invariant every producer-supplied `LineFormat` satisfies:
offsets tile the line, are ordered, and sit on character boundaries. -/
def producedInv (l : List Char) (f : LineFormat) : Prop :=
  f.tz_start = 0 ∧ f.tz_end = f.level_start ∧ f.level_end = f.path_start ∧
  f.tz_end ≤ f.level_end ∧ f.path_start ≤ f.path_end ∧ f.path_end ≤ byteLen l ∧
  ByteBoundary l f.tz_end ∧ ByteBoundary l f.level_end ∧ ByteBoundary l f.path_end

/-- Lower-case names the classifier matches against. -/
def levelName : LogType → List Char
  | .Error => "error".toList
  | .Warn => "warn".toList
  | .Info => "info".toList
  | .Debug => "debug".toList
  | .Trace => "trace".toList

/-- Example line of the shape the program expects (level `ERROR`, 11 bytes). -/
def exLine : List Char := "a ERROR b c".toList

/-- The `LineFormat` the Format Learner produces for `exLine`. -/
def fEx : LineFormat :=
  { log_type := .Error, tz_start := 0, tz_end := 2, level_start := 2,
    level_end := 8, path_start := 8, path_end := 10 }

/-- The `LineFormat` the Format Applier produces for `exLine` from the cached
general format: the source span ends at byte 9, not 10. -/
def fExApplied : LineFormat :=
  { log_type := .Error, tz_start := 0, tz_end := 2, level_start := 2,
    level_end := 8, path_start := 8, path_end := 9 }

/-- A structurally valid line whose message already contains a raw ANSI escape
sequence. -/
def escLine : List Char := "a ERROR b \x1b[91mc".toList

/-- A pure-ASCII line from which a format is learned (level `INFO`). -/
def asciiLine : List Char := "x INFO a b".toList

/-- The `LineFormat` the Format Learner produces for `asciiLine`. -/
def fAscii : LineFormat :=
  { log_type := .Info, tz_start := 0, tz_end := 2, level_start := 2,
    level_end := 7, path_start := 7, path_end := 9 }

/-- A later line whose two-byte character `é` sits under the cached level
offset of `fAscii`. -/
def accentLine : List Char := "aé INFO a b".toList

/-- A line whose level token does not classify under the `asciiLine` format. -/
def loremLine : List Char := "x LOREM a b".toList

theorem charSize_pos (c : Char) : 0 < charSize c := by
  unfold charSize
  split_ifs <;> omega

theorem byteLen_append (a b : List Char) :
    byteLen (a ++ b) = byteLen a + byteLen b := by
  induction a with
  | nil => simp [byteLen]
  | cons c cs ih => simp [byteLen, ih]; omega

theorem byteLen_eq_zero {m : List Char} (h : byteLen m = 0) : m = [] := by
  cases m with
  | nil => rfl
  | cons c cs => exact absurd h (by have := charSize_pos c; simp [byteLen]; omega)

theorem dropBytes_append (x t : List Char) :
    dropBytes (x ++ t) (byteLen x) = some t := by
  induction x with
  | nil => simp [byteLen, dropBytes]
  | cons c cs ih =>
    have hc := charSize_pos c
    have hb : byteLen (c :: cs) = (charSize c + byteLen cs - 1) + 1 := by
      simp [byteLen]; omega
    rw [hb]
    show dropBytes (c :: (cs ++ t)) _ = some t
    rw [dropBytes]
    have hle : charSize c ≤ charSize c + byteLen cs - 1 + 1 := by omega
    rw [if_pos hle]
    have : charSize c + byteLen cs - 1 + 1 - charSize c = byteLen cs := by omega
    rw [this, ih]

theorem dropBytes_eq_some {l t : List Char} {n : Nat} (h : dropBytes l n = some t) :
    ∃ pre, l = pre ++ t ∧ byteLen pre = n := by
  induction l generalizing n with
  | nil =>
    cases n with
    | zero =>
      refine ⟨[], ?_, rfl⟩
      simp [dropBytes] at h
      simp [h]
    | succ k => simp [dropBytes] at h
  | cons c cs ih =>
    cases n with
    | zero =>
      simp [dropBytes] at h
      exact ⟨[], by simp [h], rfl⟩
    | succ k =>
      rw [dropBytes] at h
      by_cases hle : charSize c ≤ k + 1
      · rw [if_pos hle] at h
        obtain ⟨pre, hpre, hlen⟩ := ih h
        exact ⟨c :: pre, by simp [hpre], by simp [byteLen, hlen]; omega⟩
      · rw [if_neg hle] at h
        exact absurd h (by simp)

theorem takeBytes_append (x t : List Char) :
    takeBytes (x ++ t) (byteLen x) = some x := by
  induction x with
  | nil => simp [byteLen, takeBytes]
  | cons c cs ih =>
    have hc := charSize_pos c
    have hb : byteLen (c :: cs) = (charSize c + byteLen cs - 1) + 1 := by
      simp [byteLen]; omega
    rw [hb]
    show takeBytes (c :: (cs ++ t)) _ = some (c :: cs)
    rw [takeBytes]
    have hle : charSize c ≤ charSize c + byteLen cs - 1 + 1 := by omega
    rw [if_pos hle]
    have : charSize c + byteLen cs - 1 + 1 - charSize c = byteLen cs := by omega
    rw [this, ih]
    rfl

theorem takeBytes_eq_some {l x : List Char} {n : Nat} (h : takeBytes l n = some x) :
    ∃ r, l = x ++ r ∧ byteLen x = n := by
  induction l generalizing n x with
  | nil =>
    cases n with
    | zero =>
      simp [takeBytes] at h
      subst h
      exact ⟨[], by simp, rfl⟩
    | succ k => simp [takeBytes] at h
  | cons c cs ih =>
    cases n with
    | zero =>
      simp [takeBytes] at h
      subst h
      exact ⟨c :: cs, by simp, rfl⟩
    | succ k =>
      rw [takeBytes] at h
      by_cases hle : charSize c ≤ k + 1
      · rw [if_pos hle] at h
        cases hx : takeBytes cs (k + 1 - charSize c) with
        | none => rw [hx] at h; exact absurd h (by simp)
        | some x' =>
          rw [hx] at h
          simp at h
          obtain ⟨r, hr, hlen⟩ := ih hx
          refine ⟨r, by simp [← h, hr], ?_⟩
          rw [← h]
          simp only [byteLen, hlen]
          omega
      · rw [if_neg hle] at h
        exact absurd h (by simp)

theorem takeBytes_add (x t : List Char) (m : Nat) :
    takeBytes (x ++ t) (byteLen x + m) = (takeBytes t m).map (fun y => x ++ y) := by
  induction x with
  | nil =>
    simp [byteLen]
  | cons c cs ih =>
    have hc := charSize_pos c
    have hb : byteLen (c :: cs) + m = (charSize c + byteLen cs + m - 1) + 1 := by
      simp [byteLen]; omega
    rw [hb]
    show takeBytes (c :: (cs ++ t)) _ = _
    rw [takeBytes]
    have hle : charSize c ≤ charSize c + byteLen cs + m - 1 + 1 := by omega
    rw [if_pos hle]
    have : charSize c + byteLen cs + m - 1 + 1 - charSize c = byteLen cs + m := by omega
    rw [this, ih]
    cases takeBytes t m <;> simp

theorem byteSlice_eq_some {l x : List Char} {a b : Nat} (h : byteSlice l a b = some x) :
    ∃ pre post, l = pre ++ x ++ post ∧ byteLen pre = a ∧ byteLen x = b - a ∧ a ≤ b := by
  unfold byteSlice at h
  by_cases hab : a ≤ b
  · rw [if_pos hab] at h
    cases hd : dropBytes l a with
    | none => rw [hd] at h; exact absurd h (by simp)
    | some t =>
      rw [hd] at h
      have h' : takeBytes t (b - a) = some x := h
      obtain ⟨pre, hpre, hlenp⟩ := dropBytes_eq_some hd
      obtain ⟨r, hr, hlenx⟩ := takeBytes_eq_some h'
      exact ⟨pre, r, by rw [hpre, hr, List.append_assoc], hlenp, hlenx, hab⟩
  · rw [if_neg hab] at h
    exact absurd h (by simp)

theorem byteSlice_of_decomp {l p x q : List Char} {a b : Nat}
    (hl : l = p ++ x ++ q) (ha : byteLen p = a) (hb : b = a + byteLen x) :
    byteSlice l a b = some x := by
  unfold byteSlice
  have hab : a ≤ b := by omega
  rw [if_pos hab]
  have hl' : l = p ++ (x ++ q) := by rw [hl, List.append_assoc]
  rw [hl', ← ha, dropBytes_append]
  show takeBytes (x ++ q) (b - byteLen p) = some x
  have : b - byteLen p = byteLen x := by omega
  rw [this, takeBytes_append]

theorem byteSlice_adjacent {l x y : List Char} {a b c : Nat}
    (h1 : byteSlice l a b = some x) (h2 : byteSlice l b c = some y) :
    byteSlice l a c = some (x ++ y) := by
  obtain ⟨p1, q1, hl1, hp1, hx, hab⟩ := byteSlice_eq_some h1
  obtain ⟨p2, q2, hl2, hp2, hy, hbc⟩ := byteSlice_eq_some h2
  have hb1 : byteLen (p1 ++ x) = b := by rw [byteLen_append]; omega
  have hl1' : l = (p1 ++ x) ++ q1 := by rw [hl1]
  have hl2' : l = p2 ++ (y ++ q2) := by rw [hl2, List.append_assoc]
  -- p2 and p1 ++ x are prefixes of l of the same byte length, hence equal
  have key : ∀ (u v s t : List Char), u ++ s = v ++ t → byteLen u ≤ byteLen v →
      ∃ m, v = u ++ m ∧ s = m ++ t := by
    intro u
    induction u with
    | nil => intro v s t he _; exact ⟨v, rfl, by simpa using he⟩
    | cons d ds ih =>
      intro v s t he hle
      cases v with
      | nil =>
        exfalso
        have := charSize_pos d
        simp [byteLen] at hle
        omega
      | cons e es =>
        simp at he
        obtain ⟨hde, he'⟩ := he
        have hle' : byteLen ds ≤ byteLen es := by
          subst hde; simp [byteLen] at hle; omega
        obtain ⟨m, hm1, hm2⟩ := ih es s t he' hle'
        exact ⟨m, by simp [hm1, hde], hm2⟩
  obtain ⟨m, hm1, hm2⟩ := key (p1 ++ x) p2 q1 (y ++ q2)
    (by rw [← hl1', ← hl2']) (by omega)
  have hm0 : byteLen m = 0 := by
    have := congrArg byteLen hm1
    rw [byteLen_append] at this
    omega
  have hmnil : m = [] := byteLen_eq_zero hm0
  subst hmnil
  have hp2eq : p2 = p1 ++ x := by simpa using hm1
  apply byteSlice_of_decomp (p := p1) (x := x ++ y) (q := q2)
  · rw [hl2, hp2eq]; simp [List.append_assoc]
  · exact hp1
  · rw [byteLen_append]; omega

theorem byteSlice_full (l : List Char) : byteSlice l 0 (byteLen l) = some l := by
  apply byteSlice_of_decomp (p := []) (q := [])
  · simp
  · rfl
  · simp [byteLen]

theorem byteLen_prefix_unique {l p1 s1 p2 s2 : List Char}
    (h1 : l = p1 ++ s1) (h2 : l = p2 ++ s2) (hle : byteLen p1 ≤ byteLen p2) :
    ∃ m, p2 = p1 ++ m ∧ s1 = m ++ s2 := by
  induction p1 generalizing l p2 with
  | nil =>
    exact ⟨p2, rfl, by rw [← h2, h1]; simp⟩
  | cons d ds ih =>
    cases p2 with
    | nil =>
      exfalso
      have := charSize_pos d
      simp [byteLen] at hle
      omega
    | cons e es =>
      rw [h1] at h2
      simp at h2
      obtain ⟨hde, he'⟩ := h2
      have hle' : byteLen ds ≤ byteLen es := by
        subst hde; simp [byteLen] at hle; omega
      obtain ⟨m, hm1, hm2⟩ := ih (l := ds ++ s1) rfl he' hle'
      exact ⟨m, by simp [hm1, hde], hm2⟩

theorem byteSlice_of_boundaries {l : List Char} {a b : Nat}
    (ha : ByteBoundary l a) (hb : ByteBoundary l b) (hab : a ≤ b) :
    ∃ x, byteSlice l a b = some x := by
  obtain ⟨p1, s1, hl1, hp1⟩ := ha
  obtain ⟨p2, s2, hl2, hp2⟩ := hb
  obtain ⟨m, hm1, hm2⟩ := byteLen_prefix_unique hl1 hl2 (by omega)
  refine ⟨m, byteSlice_of_decomp (p := p1) (q := s2) ?_ hp1 ?_⟩
  · rw [hl1, hm2]; simp [List.append_assoc]
  · have := congrArg byteLen hm1
    rw [byteLen_append] at this
    omega

theorem charIndicesAux_mem {l : List Char} {off i : Nat} {c : Char}
    (h : (i, c) ∈ charIndicesAux l off) :
    ∃ pre post, l = pre ++ c :: post ∧ off + byteLen pre = i := by
  induction l generalizing off with
  | nil => simp [charIndicesAux] at h
  | cons d ds ih =>
    rw [charIndicesAux] at h
    rcases List.mem_cons.mp h with hhd | htl
    · have hi : i = off := by simpa using congrArg Prod.fst hhd
      have hc : c = d := by simpa using congrArg Prod.snd hhd
      exact ⟨[], ds, by rw [hc]; rfl, by simp [byteLen, hi]⟩
    · obtain ⟨pre, post, hds, hlen⟩ := ih htl
      refine ⟨d :: pre, post, by rw [hds]; rfl, ?_⟩
      simp only [byteLen] at hlen ⊢
      omega

theorem charIndices_mem {l : List Char} {i : Nat} {c : Char}
    (h : (i, c) ∈ charIndices l) :
    ∃ pre post, l = pre ++ c :: post ∧ byteLen pre = i := by
  obtain ⟨pre, post, hl, hlen⟩ := charIndicesAux_mem h
  exact ⟨pre, post, hl, by omega⟩

theorem charIndicesAux_ge {l : List Char} {off : Nat} :
    ∀ p ∈ charIndicesAux l off, off ≤ p.1 := by
  induction l generalizing off with
  | nil => simp [charIndicesAux]
  | cons d ds ih =>
    intro p hp
    rw [charIndicesAux] at hp
    rcases List.mem_cons.mp hp with hhd | htl
    · simp [hhd]
    · have := ih p htl
      have hd := charSize_pos d
      omega

theorem charIndicesAux_pairwise (l : List Char) (off : Nat) :
    List.Pairwise (fun p q => p.1 < q.1) (charIndicesAux l off) := by
  induction l generalizing off with
  | nil => simp [charIndicesAux]
  | cons d ds ih =>
    rw [charIndicesAux]
    refine List.Pairwise.cons ?_ (ih _)
    intro q hq
    have := charIndicesAux_ge q hq
    have hd := charSize_pos d
    simp only
    omega

theorem spaceIndicesAux_mem {ps : List (Nat × Char)} {b : Bool} {k i : Nat}
    (h : i ∈ spaceIndicesAux ps b k) : (i, ' ') ∈ ps := by
  induction ps generalizing b k with
  | nil => simp [spaceIndicesAux] at h
  | cons p rest ih =>
    obtain ⟨j, c⟩ := p
    rw [spaceIndicesAux] at h
    by_cases hc : c = ' '
    · rw [if_pos hc] at h
      by_cases hb : b = true
      · rw [if_pos hb] at h
        exact List.mem_cons_of_mem _ (ih h)
      · rw [if_neg hb] at h
        by_cases hk : k + 1 > 2
        · rw [if_pos hk] at h
          simp at h
          subst h
          rw [hc]
          exact List.mem_cons_self _ _
        · rw [if_neg hk] at h
          rcases List.mem_cons.mp h with hhd | htl
          · subst hhd; rw [hc]; exact List.mem_cons_self _ _
          · exact List.mem_cons_of_mem _ (ih htl)
    · rw [if_neg hc] at h
      exact List.mem_cons_of_mem _ (ih h)

theorem spaceIndicesAux_pairwise {ps : List (Nat × Char)}
    (hps : List.Pairwise (fun p q => p.1 < q.1) ps) (b : Bool) (k : Nat) :
    List.Pairwise (· < ·) (spaceIndicesAux ps b k) := by
  induction ps generalizing b k with
  | nil => simp [spaceIndicesAux]
  | cons p rest ih =>
    obtain ⟨j, c⟩ := p
    have hrest := (List.pairwise_cons.mp hps).2
    have hhead := (List.pairwise_cons.mp hps).1
    rw [spaceIndicesAux]
    by_cases hc : c = ' '
    · rw [if_pos hc]
      by_cases hb : b = true
      · rw [if_pos hb]; exact ih hrest _ _
      · rw [if_neg hb]
        by_cases hk : k + 1 > 2
        · rw [if_pos hk]; simp
        · rw [if_neg hk]
          refine List.Pairwise.cons ?_ (ih hrest _ _)
          intro a ha
          simpa using hhead (a, ' ') (spaceIndicesAux_mem ha)
    · rw [if_neg hc]; exact ih hrest _ _

theorem spaceIndices_pairwise (l : List Char) :
    List.Pairwise (· < ·) (spaceIndices l) :=
  spaceIndicesAux_pairwise (charIndicesAux_pairwise l 0) false 0

theorem spaceIndices_mem_space {l : List Char} {i : Nat} (h : i ∈ spaceIndices l) :
    (i, ' ') ∈ charIndices l :=
  spaceIndicesAux_mem h

theorem spaceIndicesAux_eq_take {ps : List (Nat × Char)} (b : Bool) {k : Nat}
    (hk : k ≤ 2) :
    spaceIndicesAux ps b k = (runStartsAux ps b).take (3 - k) := by
  induction ps generalizing b k with
  | nil => simp [spaceIndicesAux, runStartsAux]
  | cons p rest ih =>
    obtain ⟨j, c⟩ := p
    rw [spaceIndicesAux, runStartsAux]
    by_cases hc : c = ' '
    · rw [if_pos hc, if_pos hc]
      by_cases hb : b = true
      · rw [if_pos hb, if_pos hb]
        exact ih _ hk
      · rw [if_neg hb, if_neg hb]
        by_cases hkk : k + 1 > 2
        · rw [if_pos hkk]
          have : k = 2 := by omega
          subst this
          simp
        · rw [if_neg hkk]
          have hk1 : k + 1 ≤ 2 := by omega
          rw [ih _ hk1]
          have : 3 - k = (3 - (k + 1)) + 1 := by omega
          rw [this, List.take_succ_cons]
    · rw [if_neg hc, if_neg hc]
      exact ih _ hk

theorem spaceIndices_eq_take (l : List Char) :
    spaceIndices l = (runStarts l).take 3 :=
  spaceIndicesAux_eq_take false (by omega)

theorem spaceIndices_length_le (l : List Char) : (spaceIndices l).length ≤ 3 := by
  rw [spaceIndices_eq_take]
  exact List.length_take_le _ _

theorem spaceIndices_eq_of_three {l : List Char} {s0 s1 s2 : Nat}
    (h0 : (spaceIndices l)[0]? = some s0) (h1 : (spaceIndices l)[1]? = some s1)
    (h2 : (spaceIndices l)[2]? = some s2) : spaceIndices l = [s0, s1, s2] := by
  have hlen := spaceIndices_length_le l
  have h2' : 2 < (spaceIndices l).length := by
    by_contra hc
    push_neg at hc
    rw [List.getElem?_eq_none (by omega)] at h2
    exact absurd h2 (by simp)
  have h3 : (spaceIndices l).length = 3 := by omega
  obtain ⟨a, b, c, habc⟩ := List.length_eq_three.mp h3
  rw [habc] at h0 h1 h2 ⊢
  simp at h0 h1 h2
  rw [h0, h1, h2]

theorem scratch_ok_inversion {l : List Char} {f : LineFormat}
    (h : parse_line_from_scratch l = .ok f) :
    ∃ s0 s1 s2 sub, spaceIndices l = [s0, s1, s2] ∧ 4 ≤ byteLen l ∧
      byteSlice l (s0 + 1) s1 = some sub ∧ classifyLevel sub = some f.log_type ∧
      f.tz_start = 0 ∧ f.tz_end = s0 + 1 ∧ f.level_start = s0 + 1 ∧
      f.level_end = s1 + 1 ∧ f.path_start = s1 + 1 ∧ f.path_end = s2 + 1 := by
  rw [parse_line_from_scratch] at h
  by_cases hlen : byteLen l < 4
  · rw [if_pos hlen] at h
    exact absurd h (by simp)
  rw [if_neg hlen] at h
  simp only at h
  cases h0 : (spaceIndices l)[0]? with
  | none => rw [h0] at h; cases h1 : (spaceIndices l)[1]? <;> rw [h1] at h <;> simp at h
  | some s0 =>
    rw [h0] at h
    cases h1 : (spaceIndices l)[1]? with
    | none => rw [h1] at h; simp at h
    | some s1 =>
      rw [h1] at h
      dsimp only at h
      cases hsl : byteSlice l (s0 + 1) s1 with
      | none => rw [hsl] at h; simp at h
      | some sub =>
        rw [hsl] at h
        dsimp only at h
        cases hcl : classifyLevel sub with
        | none => rw [hcl] at h; simp at h
        | some lt =>
          rw [hcl] at h
          dsimp only at h
          cases h2 : (spaceIndices l)[2]? with
          | none => rw [h2] at h; simp at h
          | some s2 =>
            rw [h2] at h
            simp only [ParseResult.ok.injEq] at h
            refine ⟨s0, s1, s2, sub, spaceIndices_eq_of_three h0 h1 h2, by omega,
              hsl, ?_, ?_, ?_, ?_, ?_, ?_, ?_⟩ <;> rw [← h] <;> simp [hcl]

theorem findSpace_eq_some {t : List Char} {j : Nat} (h : findSpace t = some j) :
    ∃ u v, t = u ++ ' ' :: v ∧ byteLen u = j ∧ ' ' ∉ u := by
  induction t generalizing j with
  | nil => simp [findSpace] at h
  | cons c cs ih =>
    rw [findSpace] at h
    by_cases hc : c = ' '
    · rw [if_pos hc] at h
      simp at h
      exact ⟨[], cs, by rw [hc]; rfl, by simp [byteLen, ← h], by simp⟩
    · rw [if_neg hc] at h
      cases hf : findSpace cs with
      | none => rw [hf] at h; simp at h
      | some j' =>
        rw [hf] at h
        simp at h
        obtain ⟨u, v, ht, hlenu, hnot⟩ := ih hf
        refine ⟨c :: u, v, by rw [ht]; rfl, ?_, ?_⟩
        · simp only [byteLen]
          omega
        · intro hmem
          rcases List.mem_cons.mp hmem with h' | h'
          · exact hc h'.symm
          · exact hnot h'

theorem findSpace_of_mem {t : List Char} (h : ' ' ∈ t) : ∃ j, findSpace t = some j := by
  induction t with
  | nil => simp at h
  | cons c cs ih =>
    rw [findSpace]
    by_cases hc : c = ' '
    · rw [if_pos hc]
      exact ⟨0, rfl⟩
    · rw [if_neg hc]
      have hmem : ' ' ∈ cs := by
        rcases List.mem_cons.mp h with h' | h'
        · exact absurd h'.symm hc
        · exact h'
      obtain ⟨j, hj⟩ := ih hmem
      exact ⟨j + charSize c, by rw [hj]; rfl⟩

theorem applier_ok_inversion {l : List Char} {gf : GeneralLineFormat} {f : LineFormat}
    (h : parse_line_path_from_general_format l gf = .ok f) :
    ∃ sub tail off, byteSlice l gf.level_start gf.level_end = some sub ∧
      classifyLevel sub = some f.log_type ∧
      byteSlice l gf.path_start (byteLen l) = some tail ∧ findSpace tail = some off ∧
      f.tz_start = gf.tz_start ∧ f.tz_end = gf.tz_end ∧ f.level_start = gf.level_start ∧
      f.level_end = gf.level_end ∧ f.path_start = gf.path_start ∧
      f.path_end = off + gf.path_start := by
  rw [parse_line_path_from_general_format] at h
  cases h1 : byteSlice l gf.level_start gf.level_end with
  | none => rw [h1] at h; simp at h
  | some sub =>
    rw [h1] at h
    dsimp only at h
    cases hcl : classifyLevel sub with
    | none => rw [hcl] at h; simp at h
    | some lt =>
      rw [hcl] at h
      dsimp only at h
      cases h2 : byteSlice l gf.path_start (byteLen l) with
      | none => rw [h2] at h; simp at h
      | some tail =>
        rw [h2] at h
        dsimp only at h
        cases hf : findSpace tail with
        | none => rw [hf] at h; simp at h
        | some off =>
          rw [hf] at h
          simp only [ParseResult.ok.injEq] at h
          refine ⟨sub, tail, off, rfl, ?_, rfl, hf, ?_, ?_, ?_, ?_, ?_, ?_⟩ <;>
            rw [← h] <;> simp [hcl]

theorem charSize_space : charSize ' ' = 1 := by decide

theorem spaceIndices_decomp {l : List Char} {i : Nat} (h : i ∈ spaceIndices l) :
    ∃ pre post, l = pre ++ ' ' :: post ∧ byteLen pre = i :=
  charIndices_mem (spaceIndices_mem_space h)

theorem boundary_after_space {l pre post : List Char} {i : Nat}
    (hl : l = pre ++ ' ' :: post) (hp : byteLen pre = i) : ByteBoundary l (i + 1) := by
  refine ⟨pre ++ [' '], post, by rw [hl]; simp, ?_⟩
  rw [byteLen_append, hp]
  simp [byteLen, charSize_space]

theorem byteLen_space_decomp {l pre post : List Char} (hl : l = pre ++ ' ' :: post) :
    byteLen l = byteLen pre + 1 + byteLen post := by
  rw [hl, byteLen_append]
  simp [byteLen, charSize_space]
  omega

theorem scratch_producedInv {l : List Char} {f : LineFormat}
    (h : parse_line_from_scratch l = .ok f) : producedInv l f := by
  obtain ⟨s0, s1, s2, sub, hsi, hlen, hsl, hcl, h1, h2, h3, h4, h5, h6⟩ :=
    scratch_ok_inversion h
  have hpw := spaceIndices_pairwise l
  rw [hsi] at hpw
  simp at hpw
  have h01 : s0 < s1 := hpw.1.1
  have h12 : s1 < s2 := hpw.2
  have hm0 : s0 ∈ spaceIndices l := by rw [hsi]; simp
  have hm1 : s1 ∈ spaceIndices l := by rw [hsi]; simp
  have hm2 : s2 ∈ spaceIndices l := by rw [hsi]; simp
  obtain ⟨p0, q0, hd0, hl0⟩ := spaceIndices_decomp hm0
  obtain ⟨p1, q1, hd1, hl1⟩ := spaceIndices_decomp hm1
  obtain ⟨p2, q2, hd2, hl2⟩ := spaceIndices_decomp hm2
  refine ⟨h1, by rw [h2, h3], by rw [h4, h5], by rw [h2, h4]; omega,
    by rw [h5, h6]; omega, ?_, ?_, ?_, ?_⟩
  · have := byteLen_space_decomp hd2
    rw [h6]
    omega
  · rw [h2]; exact boundary_after_space hd0 hl0
  · rw [h4]; exact boundary_after_space hd1 hl1
  · rw [h6]; exact boundary_after_space hd2 hl2

theorem applier_producedInv {l : List Char} {gf : GeneralLineFormat} {f : LineFormat}
    (hwf : wfGeneral gf) (h : parse_line_path_from_general_format l gf = .ok f) :
    producedInv l f := by
  obtain ⟨sub, tail, off, hsl, hcl, htl, hfs, e1, e2, e3, e4, e5, e6⟩ :=
    applier_ok_inversion h
  obtain ⟨w1, w2, w3⟩ := hwf
  obtain ⟨pre, post, hdec, hp, hlenS, hab⟩ := byteSlice_eq_some hsl
  obtain ⟨pre2, post2, hdec2, hp2, hlenT, hab2⟩ := byteSlice_eq_some htl
  obtain ⟨u, v, htail, hu, hnot⟩ := findSpace_eq_some hfs
  have hblen : byteLen l = byteLen pre2 + (byteLen tail + byteLen post2) := by
    have hc := congrArg byteLen hdec2
    rw [byteLen_append, byteLen_append] at hc
    omega
  have hpost2 : post2 = [] := byteLen_eq_zero (by omega)
  subst hpost2
  have hdec2' : l = pre2 ++ tail := by rw [hdec2]; simp
  have htlen : byteLen tail = byteLen u + 1 + byteLen v := by
    rw [htail, byteLen_append]
    simp [byteLen, charSize_space]
    omega
  refine ⟨by rw [e1, w1], by rw [e2, w2, e3], by rw [e4, w3, e5],
    by rw [e2, w2, e4]; omega, by rw [e5, e6]; omega, by rw [e6]; omega, ?_, ?_, ?_⟩
  · rw [e2, w2]
    exact ⟨pre, sub ++ post, by simp [hdec], hp⟩
  · rw [e4]
    refine ⟨pre ++ sub, post, by simp [hdec], ?_⟩
    rw [byteLen_append]
    omega
  · rw [e6]
    refine ⟨pre2 ++ u, ' ' :: v, ?_, ?_⟩
    · rw [hdec2', htail]
      simp
    · rw [byteLen_append]
      omega

theorem colorize_eq_of_inv {l : List Char} {f : LineFormat} (hinv : producedInv l f) :
    ∃ a b c d, byteSlice l f.tz_start f.tz_end = some a ∧
      byteSlice l f.level_start f.level_end = some b ∧
      byteSlice l f.path_start f.path_end = some c ∧
      byteSlice l f.path_end (byteLen l) = some d ∧
      colorize_line l f = some (greyCode ++ a ++ f.log_type.as_colour_str ++ b ++
        greyCode ++ c ++ resetCode ++ d) ∧
      a ++ (b ++ (c ++ d)) = l := by
  obtain ⟨i1, i2, i3, i4, i5, i6, b1, b2, b3⟩ := hinv
  have bz : ByteBoundary l 0 := ⟨[], l, rfl, rfl⟩
  have bfull : ByteBoundary l (byteLen l) := ⟨l, [], by simp, rfl⟩
  obtain ⟨a, ha⟩ := byteSlice_of_boundaries (a := f.tz_start) (b := f.tz_end)
    (by rw [i1]; exact bz) b1 (by omega)
  obtain ⟨b, hb⟩ := byteSlice_of_boundaries (a := f.level_start) (b := f.level_end)
    (by rw [← i2]; exact b1) b2 (by omega)
  obtain ⟨c, hc⟩ := byteSlice_of_boundaries (a := f.path_start) (b := f.path_end)
    (by rw [← i3]; exact b2) b3 (by omega)
  obtain ⟨d, hd⟩ := byteSlice_of_boundaries (a := f.path_end) (b := byteLen l)
    b3 bfull (by omega)
  have hcol : colorize_line l f = some (greyCode ++ a ++ f.log_type.as_colour_str ++ b ++
      greyCode ++ c ++ resetCode ++ d) := by
    unfold colorize_line
    rw [ha, hb, hc, hd]
    rfl
  have hab : byteSlice l f.tz_start f.level_end = some (a ++ b) :=
    byteSlice_adjacent ha (by rw [i2]; exact hb)
  have habc : byteSlice l f.tz_start f.path_end = some ((a ++ b) ++ c) :=
    byteSlice_adjacent hab (by rw [i3]; exact hc)
  have habcd : byteSlice l f.tz_start (byteLen l) = some (((a ++ b) ++ c) ++ d) :=
    byteSlice_adjacent habc hd
  have hfull : byteSlice l f.tz_start (byteLen l) = some l := by
    rw [i1]; exact byteSlice_full l
  have : ((a ++ b) ++ c) ++ d = l := by
    have := habcd.symm.trans hfull
    simpa using this
  exact ⟨a, b, c, d, ha, hb, hc, hd, hcol, by rw [← this]; simp⟩

theorem asciiLower_of_ws {c : Char} (h : isRustWhitespace c = true) : asciiLower c = c := by
  have hn : ¬(65 ≤ c.toNat ∧ c.toNat ≤ 90) := by
    unfold isRustWhitespace at h
    simp only [Bool.or_eq_true, Bool.and_eq_true, decide_eq_true_eq] at h
    omega
  unfold asciiLower
  rw [if_neg hn]

theorem ws_of_lower {c d : Char} (h : asciiLower c = d)
    (hd : isRustWhitespace d = false) : isRustWhitespace c = false := by
  by_contra hc
  simp only [Bool.not_eq_false] at hc
  rw [asciiLower_of_ws hc] at h
  rw [h] at hc
  simp [hc] at hd

theorem dropWhile_append_ws {p : Char → Bool} {pad : List Char}
    (hpad : ∀ c ∈ pad, p c = true) (x : List Char) :
    List.dropWhile p (pad ++ x) = List.dropWhile p x := by
  induction pad with
  | nil => rfl
  | cons c cs ih =>
    have hc := hpad c (by simp)
    rw [List.cons_append, List.dropWhile_cons, if_pos hc]
    exact ih (fun d hd => hpad d (by simp [hd]))

theorem dropWhile_eq_self {p : Char → Bool} {x : List Char}
    (h : ∀ c, x.head? = some c → p c = false) : List.dropWhile p x = x := by
  cases x with
  | nil => rfl
  | cons c cs => simp [List.dropWhile_cons, h c rfl]

theorem dropWhile_append_of_ne_nil {p : Char → Bool} {xs : List Char} {z : Char}
    {zs : List Char} (h : List.dropWhile p xs = z :: zs) (ys : List Char) :
    List.dropWhile p (xs ++ ys) = z :: (zs ++ ys) := by
  induction xs with
  | nil => simp [List.dropWhile] at h
  | cons c cs ih =>
    rw [List.dropWhile_cons] at h
    by_cases hc : p c = true
    · rw [if_pos hc] at h
      rw [List.cons_append, List.dropWhile_cons, if_pos hc]
      exact ih h
    · rw [if_neg hc] at h
      rw [List.cons_append, List.dropWhile_cons, if_neg hc]
      rw [List.cons.injEq] at h
      rw [h.1, h.2]

theorem trimChars_pad {p1 p2 cs : List Char}
    (h1 : ∀ c ∈ p1, isRustWhitespace c = true)
    (h2 : ∀ c ∈ p2, isRustWhitespace c = true)
    (hhd : ∀ c, cs.head? = some c → isRustWhitespace c = false)
    (hlast : ∀ c, cs.getLast? = some c → isRustWhitespace c = false)
    (hne : cs ≠ []) :
    trimChars (p1 ++ cs ++ p2) = cs := by
  unfold trimChars
  rw [List.append_assoc, dropWhile_append_ws h1]
  have hfront : List.dropWhile isRustWhitespace (cs ++ p2) = cs ++ p2 := by
    apply dropWhile_eq_self
    intro c hch
    cases cs with
    | nil => exact absurd rfl hne
    | cons z zs =>
      rw [List.cons_append, List.head?_cons] at hch
      injection hch with hz
      subst hz
      exact hhd z rfl
  rw [hfront, List.reverse_append]
  rw [dropWhile_append_ws (fun c hc => h2 c (List.mem_reverse.mp hc))]
  have hback : List.dropWhile isRustWhitespace cs.reverse = cs.reverse := by
    apply dropWhile_eq_self
    intro c hch
    rw [List.head?_reverse] at hch
    exact hlast c hch
  rw [hback, List.reverse_reverse]

theorem trimChars_decomp (tok : List Char) :
    ∃ u w, tok = u ++ trimChars tok ++ w ∧ (∀ c ∈ u, isRustWhitespace c = true) ∧
      (∀ c ∈ w, isRustWhitespace c = true) := by
  refine ⟨tok.takeWhile isRustWhitespace,
    ((tok.dropWhile isRustWhitespace).reverse.takeWhile isRustWhitespace).reverse,
    ?_, ?_, ?_⟩
  · have hsplit : tok = tok.takeWhile isRustWhitespace ++ tok.dropWhile isRustWhitespace :=
      (List.takeWhile_append_dropWhile _ _).symm
    have hm : tok.dropWhile isRustWhitespace = trimChars tok ++
        ((tok.dropWhile isRustWhitespace).reverse.takeWhile isRustWhitespace).reverse := by
      unfold trimChars
      conv_lhs => rw [← List.reverse_reverse (tok.dropWhile isRustWhitespace)]
      conv_lhs => rw [← List.takeWhile_append_dropWhile isRustWhitespace
        (tok.dropWhile isRustWhitespace).reverse]
      rw [List.reverse_append]
    conv_lhs => rw [hsplit, hm]
    rw [List.append_assoc]
  · intro c hc
    exact List.mem_takeWhile_imp hc
  · intro c hc
    exact List.mem_takeWhile_imp (List.mem_reverse.mp hc)

theorem trimChars_append_space (xs : List Char) :
    trimChars (xs ++ [' ']) = trimChars xs := by
  unfold trimChars
  cases hdw : List.dropWhile isRustWhitespace xs with
  | nil =>
    have hall : ∀ c ∈ xs, isRustWhitespace c = true := by
      intro c hc
      exact List.dropWhile_eq_nil_iff.mp hdw c hc
    rw [dropWhile_append_ws hall]
    have hsp : List.dropWhile isRustWhitespace [' '] = [] := by decide
    rw [hsp]
  | cons z zs =>
    rw [dropWhile_append_of_ne_nil hdw [' ']]
    have hrev : (z :: (zs ++ [' '])).reverse = ' ' :: (z :: zs).reverse := by simp
    rw [hrev, List.dropWhile_cons, if_pos (by decide)]

theorem classifyLevel_append_space (xs : List Char) :
    classifyLevel (xs ++ [' ']) = classifyLevel xs := by
  simp only [classifyLevel]
  rw [trimChars_append_space]

theorem classifyLevel_of_lower {sub : List Char} {lt : LogType}
    (h : (trimChars sub).map asciiLower = levelName lt) : classifyLevel sub = some lt := by
  cases lt <;> (simp only [classifyLevel]; rw [h]) <;> decide

theorem classifyLevel_eq_some {sub : List Char} {lt : LogType}
    (h : classifyLevel sub = some lt) :
    (trimChars sub).map asciiLower = levelName lt := by
  simp only [classifyLevel] at h
  split_ifs at h with h1 h2 h3 h4 h5
  · injection h with h'; subst h'; simpa [levelName] using h1
  · injection h with h'; subst h'; simpa [levelName] using h2
  · injection h with h'; subst h'; simpa [levelName] using h3
  · injection h with h'; subst h'; simpa [levelName] using h4
  · injection h with h'; subst h'; simpa [levelName] using h5

theorem classifyLevel_pad {lt : LogType} {pad1 pad2 cs : List Char}
    (hp1 : ∀ c ∈ pad1, isRustWhitespace c = true)
    (hp2 : ∀ c ∈ pad2, isRustWhitespace c = true)
    (hmap : cs.map asciiLower = levelName lt) :
    classifyLevel (pad1 ++ cs ++ pad2) = some lt := by
  have hne : cs ≠ [] := by
    intro hnil
    rw [hnil] at hmap
    cases lt <;> simp [levelName] at hmap
  have hhd : ∀ c, cs.head? = some c → isRustWhitespace c = false := by
    intro c hch
    have h1 : (cs.map asciiLower).head? = some (asciiLower c) := by
      rw [List.head?_map, hch]
      rfl
    rw [hmap] at h1
    cases lt <;> simp [levelName] at h1 <;> exact ws_of_lower h1.symm (by decide)
  have hlast : ∀ c, cs.getLast? = some c → isRustWhitespace c = false := by
    intro c hch
    have h1 : (cs.map asciiLower).getLast? = some (asciiLower c) := by
      rw [List.getLast?_map, hch]
      rfl
    rw [hmap] at h1
    cases lt <;> simp [levelName] at h1 <;> exact ws_of_lower h1.symm (by decide)
  apply classifyLevel_of_lower
  rw [trimChars_pad hp1 hp2 hhd hlast hne, hmap]

theorem classifyLevel_some_decomp {tok : List Char} {lt : LogType}
    (h : classifyLevel tok = some lt) :
    ∃ pad1 pad2 cs, (∀ c ∈ pad1, isRustWhitespace c = true) ∧
      (∀ c ∈ pad2, isRustWhitespace c = true) ∧
      cs.map asciiLower = levelName lt ∧ tok = pad1 ++ cs ++ pad2 := by
  obtain ⟨u, w, hdec, hu, hw⟩ := trimChars_decomp tok
  exact ⟨u, w, trimChars tok, hu, hw, classifyLevel_eq_some h, hdec⟩

theorem stripAnsiAux_skip {body : List Char} (hb : 'm' ∉ body) (xs : List Char) :
    stripAnsiAux (body ++ 'm' :: xs) .code = stripAnsiAux xs .normal := by
  induction body with
  | nil => simp [stripAnsiAux]
  | cons c cs ih =>
    have hc : ¬(c = 'm') := fun hcm => hb (by simp [hcm])
    rw [List.cons_append, stripAnsiAux, if_neg hc]
    exact ih (fun hm => hb (by simp [hm]))

theorem stripAnsiAux_code {body xs : List Char} (hb : 'm' ∉ body) :
    stripAnsiAux ('\x1b' :: '[' :: (body ++ 'm' :: xs)) .normal =
      stripAnsiAux xs .normal := by
  rw [stripAnsiAux, if_pos rfl, stripAnsiAux, if_pos rfl]
  exact stripAnsiAux_skip hb xs

theorem stripAnsiAux_grey (xs : List Char) :
    stripAnsiAux (greyCode ++ xs) .normal = stripAnsiAux xs .normal := by
  rw [show greyCode ++ xs = '\x1b' :: '[' :: (['9', '0'] ++ 'm' :: xs) from rfl]
  exact stripAnsiAux_code (by decide)

theorem stripAnsiAux_reset (xs : List Char) :
    stripAnsiAux (resetCode ++ xs) .normal = stripAnsiAux xs .normal := by
  rw [show resetCode ++ xs = '\x1b' :: '[' :: (['0'] ++ 'm' :: xs) from rfl]
  exact stripAnsiAux_code (by decide)

theorem stripAnsiAux_colour (lt : LogType) (xs : List Char) :
    stripAnsiAux (lt.as_colour_str ++ xs) .normal = stripAnsiAux xs .normal := by
  cases lt
  · rw [show LogType.Error.as_colour_str ++ xs =
      '\x1b' :: '[' :: (['9', '1'] ++ 'm' :: xs) from rfl]
    exact stripAnsiAux_code (by decide)
  · rw [show LogType.Warn.as_colour_str ++ xs =
      '\x1b' :: '[' :: (['9', '3'] ++ 'm' :: xs) from rfl]
    exact stripAnsiAux_code (by decide)
  · rw [show LogType.Info.as_colour_str ++ xs =
      '\x1b' :: '[' :: (['9', '2'] ++ 'm' :: xs) from rfl]
    exact stripAnsiAux_code (by decide)
  · rw [show LogType.Debug.as_colour_str ++ xs =
      '\x1b' :: '[' :: (['9', '4'] ++ 'm' :: xs) from rfl]
    exact stripAnsiAux_code (by decide)
  · rw [show LogType.Trace.as_colour_str ++ xs =
      '\x1b' :: '[' :: (['9', '5'] ++ 'm' :: xs) from rfl]
    exact stripAnsiAux_code (by decide)

theorem stripAnsiAux_noEsc {xs : List Char} (h : ∀ c ∈ xs, c ≠ '\x1b') (ys : List Char) :
    stripAnsiAux (xs ++ ys) .normal = xs ++ stripAnsiAux ys .normal := by
  induction xs with
  | nil => simp
  | cons c cs ih =>
    have hc : c ≠ '\x1b' := h c (by simp)
    rw [List.cons_append, stripAnsiAux, if_neg hc]
    rw [ih (fun d hd => h d (by simp [hd]))]
    rfl

theorem stripAnsiAux_noEsc_self {xs : List Char} (h : ∀ c ∈ xs, c ≠ '\x1b') :
    stripAnsiAux xs .normal = xs := by
  have hx := stripAnsiAux_noEsc h []
  simpa [stripAnsiAux] using hx

theorem stripAnsi_output {lt : LogType} {a b c d : List Char}
    (hA : ∀ ch ∈ a, ch ≠ '\x1b') (hB : ∀ ch ∈ b, ch ≠ '\x1b')
    (hC : ∀ ch ∈ c, ch ≠ '\x1b') (hD : ∀ ch ∈ d, ch ≠ '\x1b') :
    stripAnsi (greyCode ++ a ++ lt.as_colour_str ++ b ++ greyCode ++ c ++ resetCode ++ d)
      = a ++ (b ++ (c ++ d)) := by
  unfold stripAnsi
  simp only [List.append_assoc]
  rw [stripAnsiAux_grey, stripAnsiAux_noEsc hA, stripAnsiAux_colour,
    stripAnsiAux_noEsc hB, stripAnsiAux_grey, stripAnsiAux_noEsc hC,
    stripAnsiAux_reset, stripAnsiAux_noEsc_self hD]

theorem processLine_learned_state (gf : GeneralLineFormat) (l : List Char) :
    (processLine (some gf) l).2 = some gf := by
  simp only [processLine]
  cases parse_line_path_from_general_format l gf with
  | ok f =>
    dsimp only
    cases colorize_line l f <;> rfl
  | noParse => rfl
  | panicked => rfl

theorem runPipeline_learned_state (gf : GeneralLineFormat) (ls : List (List Char)) :
    (runPipeline (some gf) ls).2 = some gf := by
  induction ls with
  | nil => rfl
  | cons l ls ih =>
    rw [runPipeline]
    have hst := processLine_learned_state gf l
    rcases hp : processLine (some gf) l with ⟨out, st'⟩
    rw [hp] at hst
    dsimp at hst
    subst hst
    cases out with
    | crash => rfl
    | emit s =>
      dsimp only
      exact ih

theorem byteLen_ascii {l : List Char} (h : ∀ c ∈ l, c.toNat < 128) :
    byteLen l = l.length := by
  induction l with
  | nil => rfl
  | cons c cs ih =>
    have hc : charSize c = 1 := by
      unfold charSize
      rw [if_pos (h c (by simp))]
    rw [byteLen, hc, ih (fun d hd => h d (by simp [hd]))]
    simp [List.length_cons]
    omega

theorem ascii_boundary {l : List Char} (h : ∀ c ∈ l, c.toNat < 128) {n : Nat}
    (hn : n ≤ l.length) : ByteBoundary l n := by
  refine ⟨l.take n, l.drop n, (List.take_append_drop n l).symm, ?_⟩
  have ht : ∀ c ∈ l.take n, c.toNat < 128 := fun c hc => h c (List.take_subset n l hc)
  rw [byteLen_ascii ht, List.length_take]
  omega

theorem ascii_slice_isSome {l : List Char} (h : ∀ c ∈ l, c.toNat < 128) {a b : Nat}
    (hab : a ≤ b) (hb : b ≤ l.length) : ∃ x, byteSlice l a b = some x :=
  byteSlice_of_boundaries (ascii_boundary h (by omega)) (ascii_boundary h hb) hab

theorem dropBytes_comp {l t : List Char} {a : Nat} (h : dropBytes l a = some t) (k : Nat) :
    dropBytes l (a + k) = dropBytes t k := by
  induction l generalizing a with
  | nil =>
    cases a with
    | zero => simp [dropBytes] at h; subst h; simp
    | succ n => simp [dropBytes] at h
  | cons c cs ih =>
    cases a with
    | zero => simp [dropBytes] at h; subst h; simp
    | succ n =>
      rw [dropBytes] at h
      by_cases hle : charSize c ≤ n + 1
      · rw [if_pos hle] at h
        have heq : n + 1 + k = (n + k) + 1 := by omega
        rw [heq, dropBytes, if_pos (by omega)]
        have hsub : n + k + 1 - charSize c = (n + 1 - charSize c) + k := by omega
        rw [hsub]
        exact ih h
      · rw [if_neg hle] at h
        simp at h

theorem take3_eq {α : Type} {xs : List α} {a b c : α} (h : xs.take 3 = [a, b, c]) :
    ∃ rest, xs = a :: b :: c :: rest := by
  cases xs with
  | nil => simp at h
  | cons x xs1 =>
    cases xs1 with
    | nil => simp at h
    | cons y xs2 =>
      cases xs2 with
      | nil => simp at h
      | cons z xs3 =>
        simp [List.take] at h
        exact ⟨xs3, by rw [h.1, h.2.1, h.2.2]⟩

/-- C1: the claim says that a line of byte length at least 4 with fewer than 3
maximal space runs makes `parse_line_from_scratch` return `None` and the
Unlearned pipeline emit the `FAILED TO PARSE LINE: ` prefix.  The code instead
indexes `space_indices[0]` (and `[1]`, `[2]`) without checking how many run
starts were found, so on the 4-byte, zero-run line `"abcd"` it panics with an
out-of-bounds index and the process crashes. -/
theorem c1_learner_panics_on_line_without_three_runs :
    byteLen ("abcd".toList) = 4 ∧ runStarts ("abcd".toList) = [] ∧
    parse_line_from_scratch ("abcd".toList) = .panicked ∧
    processLine none ("abcd".toList) = (.crash, none) :=
  ⟨by decide, by decide, by decide, by decide⟩

/-- C2: the claim says an empty or 2-character line always yields
`FAILED TO PARSE LINE: ` plus the original line, in every pipeline state.
That holds in the Unlearned state (`byteLen < 4` makes the Learner return
`None`), but in the Learned state the Format Applier slices
`line[level_start..level_end]` unchecked; every learnable format has
`level_end ≥ 3 > 2`, so the slice is out of bounds and the process panics
instead of emitting the prefixed line. -/
theorem c2_short_line_crashes_in_learned_state :
    processLine none ([] : List Char) = (.emit failedParseTag, none) ∧
    processLine none ("ab".toList) = (.emit (failedParseTag ++ "ab".toList), none) ∧
    parse_line_from_scratch exLine = .ok fEx ∧
    processLine (some (toGeneral fEx)) ([] : List Char) =
      (.crash, some (toGeneral fEx)) ∧
    processLine (some (toGeneral fEx)) ("ab".toList) =
      (.crash, some (toGeneral fEx)) :=
  ⟨by decide, by decide, by decide, by decide, by decide⟩

/-- C6: whenever the Format Learner succeeds, the line has at least three
maximal space runs starting at `s0 < s1 < s2`, and the produced `LineFormat`
has timestamp span `[0, s0+1)`, level span `[s0+1, s1+1)` and source span
`[s1+1, s2+1)`, each field absorbing exactly one separating space. -/
theorem c6_learner_field_boundaries :
    ∀ (l : List Char) (f : LineFormat), parse_line_from_scratch l = .ok f →
    ∃ s0 s1 s2 rest, runStarts l = s0 :: s1 :: s2 :: rest ∧
      f.tz_start = 0 ∧ f.tz_end = s0 + 1 ∧ f.level_start = s0 + 1 ∧
      f.level_end = s1 + 1 ∧ f.path_start = s1 + 1 ∧ f.path_end = s2 + 1 := by
  intro l f h
  obtain ⟨s0, s1, s2, sub, hsi, _, _, _, h1, h2, h3, h4, h5, h6⟩ :=
    scratch_ok_inversion h
  have htake : (runStarts l).take 3 = [s0, s1, s2] := by
    rw [← spaceIndices_eq_take, hsi]
  obtain ⟨rest, hrest⟩ := take3_eq htake
  exact ⟨s0, s1, s2, rest, hrest, h1, h2, h3, h4, h5, h6⟩

theorem c6_witness :
    ∃ s0 s1 s2 rest, runStarts exLine = s0 :: s1 :: s2 :: rest ∧
      fEx.tz_start = 0 ∧ fEx.tz_end = s0 + 1 ∧ fEx.level_start = s0 + 1 ∧
      fEx.level_end = s1 + 1 ∧ fEx.path_start = s1 + 1 ∧ fEx.path_end = s2 + 1 :=
  c6_learner_field_boundaries exLine fEx (by decide)

/-- C8: once a `GeneralLineFormat` is cached, the state component of the
pipeline never changes again: one step in the Learned state keeps the exact
same cached format (whatever the Format Applier returns), the whole remaining
stream keeps it, and a per-line Applier failure (`None`) emits the
`FAILED TO PARSE LINE: ` prefixed line while leaving the state untouched.
The Learned state never reverts to Unlearned and the format is never
re-learned. -/
theorem c8_learned_state_is_permanent :
    ∀ (gf : GeneralLineFormat) (l : List Char) (ls : List (List Char)),
      (processLine (some gf) l).2 = some gf ∧
      (runPipeline (some gf) ls).2 = some gf ∧
      (parse_line_path_from_general_format l gf = .noParse →
        processLine (some gf) l = (.emit (failedParseTag ++ l), some gf)) :=
  fun gf l ls =>
    ⟨processLine_learned_state gf l, runPipeline_learned_state gf ls,
     fun h => by simp [processLine, h]⟩

theorem c8_witness :
    parse_line_path_from_general_format loremLine (toGeneral fAscii) = .noParse ∧
    processLine (some (toGeneral fAscii)) loremLine =
      (.emit (failedParseTag ++ loremLine), some (toGeneral fAscii)) :=
  ⟨by decide,
   (c8_learned_state_is_permanent (toGeneral fAscii) loremLine []).2.2 (by decide)⟩

/-- C9: every `LineFormat` produced by the Format Learner, or by the Format
Applier from a well-formed cached format, satisfies the offset invariant
(`tz_start = 0`, `tz_end = level_start`, `level_end = path_start`,
`path_start ≤ path_end ≤ byteLen l`, all offsets character boundaries), and
`colorize_line` is total (never slices out of bounds) on any format
satisfying that invariant. -/
theorem c9_producer_invariants_and_colorizer_totality :
    (∀ (l : List Char) (f : LineFormat),
      parse_line_from_scratch l = .ok f → producedInv l f) ∧
    (∀ (l : List Char) (gf : GeneralLineFormat) (f : LineFormat), wfGeneral gf →
      parse_line_path_from_general_format l gf = .ok f → producedInv l f) ∧
    (∀ (l : List Char) (f : LineFormat), producedInv l f →
      ∃ out, colorize_line l f = some out) :=
  ⟨fun _ _ h => scratch_producedInv h,
   fun _ _ _ hwf h => applier_producedInv hwf h,
   fun _ _ hinv => by
     obtain ⟨a, b, c, d, _, _, _, _, hcol, _⟩ := colorize_eq_of_inv hinv
     exact ⟨_, hcol⟩⟩

theorem c9_witness :
    producedInv exLine fEx ∧ ∃ out, colorize_line exLine fEx = some out :=
  ⟨c9_producer_invariants_and_colorizer_totality.1 exLine fEx (by decide),
   c9_producer_invariants_and_colorizer_totality.2.2 exLine fEx
     (c9_producer_invariants_and_colorizer_totality.1 exLine fEx (by decide))⟩

/-- C10: on a pure-ASCII line every byte offset is a character boundary, so
byte length equals character count and every in-range slice succeeds (no
slice can fall inside a character); whereas learning from the ASCII line
`"x INFO a b"` and applying the cached offsets to `"aé INFO a b"` makes the
level slice `[2, 7)` land inside the two-byte `é`: the slice is in range yet
invalid, and the Applier panics instead of failing cleanly. -/
theorem c10_ascii_safety_and_multibyte_unsafety :
    (∀ (l : List Char), (∀ c ∈ l, c.toNat < 128) →
      byteLen l = l.length ∧
      ∀ a b : Nat, a ≤ b → b ≤ l.length → ∃ x, byteSlice l a b = some x) ∧
    (parse_line_from_scratch asciiLine = .ok fAscii ∧
     parse_line_path_from_general_format accentLine (toGeneral fAscii) = .panicked ∧
     (toGeneral fAscii).level_start ≤ (toGeneral fAscii).level_end ∧
     (toGeneral fAscii).level_end ≤ byteLen accentLine ∧
     byteSlice accentLine (toGeneral fAscii).level_start
       (toGeneral fAscii).level_end = none) := by
  constructor
  · intro l h
    exact ⟨byteLen_ascii h, fun a b hab hb => ascii_slice_isSome h hab hb⟩
  · exact ⟨by decide, by decide, by decide, by decide, by decide⟩

theorem c10_witness :
    byteLen ("ab cd".toList) = ("ab cd".toList).length ∧
    ∃ x, byteSlice ("ab cd".toList) 1 4 = some x := by
  have h := c10_ascii_safety_and_multibyte_unsafety.1 ("ab cd".toList) (by decide)
  exact ⟨h.1, h.2 1 4 (by decide) (by decide)⟩

/-- C5: for each of the five level names in any casing with arbitrary
whitespace padding on either side, classification succeeds and yields the
corresponding variant; conversely every token that classifies decomposes as
whitespace padding around a casing of one of the five names (so any other
token fails); and each variant carries its fixed ANSI color (Error red 91,
Warn yellow 93, Info green 92, Debug blue 94, Trace purple 95). -/
theorem c5_level_classification_totality :
    (∀ (lt : LogType) (pad1 pad2 cs : List Char),
      (∀ c ∈ pad1, isRustWhitespace c = true) →
      (∀ c ∈ pad2, isRustWhitespace c = true) →
      cs.map asciiLower = levelName lt →
      classifyLevel (pad1 ++ cs ++ pad2) = some lt) ∧
    (∀ (tok : List Char) (lt : LogType), classifyLevel tok = some lt →
      ∃ pad1 pad2 cs, (∀ c ∈ pad1, isRustWhitespace c = true) ∧
        (∀ c ∈ pad2, isRustWhitespace c = true) ∧
        cs.map asciiLower = levelName lt ∧ tok = pad1 ++ cs ++ pad2) ∧
    (LogType.Error.as_colour_str = "\x1b[91m".toList ∧
     LogType.Warn.as_colour_str = "\x1b[93m".toList ∧
     LogType.Info.as_colour_str = "\x1b[92m".toList ∧
     LogType.Debug.as_colour_str = "\x1b[94m".toList ∧
     LogType.Trace.as_colour_str = "\x1b[95m".toList) :=
  ⟨fun _ _ _ _ h1 h2 hm => classifyLevel_pad h1 h2 hm,
   fun _ _ h => classifyLevel_some_decomp h,
   by decide⟩

theorem c5_witness :
    classifyLevel ("  ".toList ++ "WaRn".toList ++ " ".toList) = some .Warn ∧
    classifyLevel ("notice".toList) = none :=
  ⟨c5_level_classification_totality.1 .Warn ("  ".toList) (" ".toList)
     ("WaRn".toList) (by decide) (by decide) (by decide),
   by decide⟩

/-- C7: the Format Applier succeeds on a line exactly when the slice at the
cached level offsets exists and classifies as a known level and the slice
from the cached source-start to the end of the line exists and contains a
space.  In particular the timestamp span is never validated: replacing the
first `level_start` bytes of a line by any other `level_start`-byte prefix
(for example a drifted timestamp) leaves the Applier's entire result
unchanged. -/
theorem c7_applier_success_characterization :
    (∀ (l : List Char) (gf : GeneralLineFormat),
      (∃ f, parse_line_path_from_general_format l gf = .ok f) ↔
      ((∃ sub, byteSlice l gf.level_start gf.level_end = some sub ∧
          (classifyLevel sub).isSome) ∧
       (∃ tail, byteSlice l gf.path_start (byteLen l) = some tail ∧ ' ' ∈ tail))) ∧
    (∀ (gf : GeneralLineFormat) (t t' rest : List Char),
      byteLen t = gf.level_start → byteLen t' = gf.level_start →
      gf.level_start ≤ gf.path_start →
      parse_line_path_from_general_format (t ++ rest) gf =
        parse_line_path_from_general_format (t' ++ rest) gf) := by
  constructor
  · intro l gf
    constructor
    · rintro ⟨f, hf⟩
      obtain ⟨sub, tail, off, hsl, hcl, htl, hfs, _, _, _, _, _, _⟩ :=
        applier_ok_inversion hf
      refine ⟨⟨sub, hsl, by simp [hcl]⟩, ⟨tail, htl, ?_⟩⟩
      obtain ⟨u, v, htail, _, _⟩ := findSpace_eq_some hfs
      rw [htail]
      simp
    · rintro ⟨⟨sub, hsl, hcls⟩, ⟨tail, htl, hmem⟩⟩
      obtain ⟨lt, hlt⟩ := Option.isSome_iff_exists.mp hcls
      obtain ⟨j, hj⟩ := findSpace_of_mem hmem
      have hres : parse_line_path_from_general_format l gf =
          .ok { log_type := lt, tz_start := gf.tz_start, tz_end := gf.tz_end,
                level_start := gf.level_start, level_end := gf.level_end,
                path_start := gf.path_start, path_end := j + gf.path_start } := by
        rw [parse_line_path_from_general_format, hsl]
        dsimp only
        rw [hlt]
        dsimp only
        rw [htl]
        dsimp only
        rw [hj]
      exact ⟨_, hres⟩
  · intro gf t t' rest h1 h2 h3
    have hd1 : dropBytes (t ++ rest) gf.level_start = some rest := by
      rw [← h1]
      exact dropBytes_append t rest
    have hd2 : dropBytes (t' ++ rest) gf.level_start = some rest := by
      rw [← h2]
      exact dropBytes_append t' rest
    have hslice1 : byteSlice (t ++ rest) gf.level_start gf.level_end =
        byteSlice (t' ++ rest) gf.level_start gf.level_end := by
      unfold byteSlice
      rw [hd1, hd2]
    have hlen : byteLen (t ++ rest) = byteLen (t' ++ rest) := by
      rw [byteLen_append, byteLen_append, h1, h2]
    have hsplit : gf.level_start + (gf.path_start - gf.level_start) =
        gf.path_start := by omega
    have hc1 : dropBytes (t ++ rest) gf.path_start =
        dropBytes rest (gf.path_start - gf.level_start) := by
      have hx := dropBytes_comp hd1 (gf.path_start - gf.level_start)
      rwa [hsplit] at hx
    have hc2 : dropBytes (t' ++ rest) gf.path_start =
        dropBytes rest (gf.path_start - gf.level_start) := by
      have hx := dropBytes_comp hd2 (gf.path_start - gf.level_start)
      rwa [hsplit] at hx
    have hslice2 : byteSlice (t ++ rest) gf.path_start (byteLen (t ++ rest)) =
        byteSlice (t' ++ rest) gf.path_start (byteLen (t' ++ rest)) := by
      unfold byteSlice
      rw [hc1, hc2, hlen]
    unfold parse_line_path_from_general_format
    rw [hslice1, hslice2]

theorem c7_witness :
    parse_line_path_from_general_format ("YYYY INFO a b".toList ++ " src: msg".toList)
        { tz_start := 0, tz_end := 13, level_start := 13, level_end := 18,
          path_start := 18 } =
      parse_line_path_from_general_format ("drifted-stamp".toList ++ " src: msg".toList)
        { tz_start := 0, tz_end := 13, level_start := 13, level_end := 18,
          path_start := 18 } :=
  c7_applier_success_characterization.2
    { tz_start := 0, tz_end := 13, level_start := 13, level_end := 18,
      path_start := 18 }
    ("YYYY INFO a b".toList) ("drifted-stamp".toList) (" src: msg".toList)
    (by decide) (by decide) (by decide)

/-- C4 counterexample: the line `"a ERROR b \x1b[91mc"` parses successfully,
but its message already contains an ANSI escape sequence, so removing all
ANSI escape sequences from the colorized output also removes that embedded
sequence and the result differs from the original line. -/
theorem c4_ansi_input_breaks_roundtrip :
    parse_line_from_scratch escLine = .ok fEx ∧
    ∃ out, colorize_line escLine fEx = some out ∧ stripAnsi out ≠ escLine := by
  refine ⟨by decide, ⟨greyCode ++ "a ".toList ++ "\x1b[91m".toList ++
    "ERROR ".toList ++ greyCode ++ "b ".toList ++ resetCode ++
    "\x1b[91mc".toList, by decide, by decide⟩⟩

/-- C4 amended: for every successfully parsed line (by the Format Learner, or
by the Format Applier from a well-formed cached format) that itself contains
no ESC (0x1B) character, removing all ANSI escape sequences from the string
returned by `colorize_line` yields exactly the original line. -/
theorem c4_amended_strip_roundtrip_esc_free :
    ∀ (l : List Char) (f : LineFormat) (out : List Char),
      (∀ c ∈ l, c ≠ '\x1b') →
      (parse_line_from_scratch l = .ok f ∨
        ∃ gf, wfGeneral gf ∧ parse_line_path_from_general_format l gf = .ok f) →
      colorize_line l f = some out →
      stripAnsi out = l := by
  intro l f out hesc hsrc hcol
  have hinv : producedInv l f := by
    rcases hsrc with h | ⟨gf, hwf, h⟩
    · exact scratch_producedInv h
    · exact applier_producedInv hwf h
  obtain ⟨a, b, c, d, _, _, _, _, hcol', htile⟩ := colorize_eq_of_inv hinv
  rw [hcol] at hcol'
  injection hcol' with he
  subst he
  have hmA : ∀ ch ∈ a, ch ≠ '\x1b' := fun ch hch =>
    hesc ch (by rw [← htile]; simp [hch])
  have hmB : ∀ ch ∈ b, ch ≠ '\x1b' := fun ch hch =>
    hesc ch (by rw [← htile]; simp [hch])
  have hmC : ∀ ch ∈ c, ch ≠ '\x1b' := fun ch hch =>
    hesc ch (by rw [← htile]; simp [hch])
  have hmD : ∀ ch ∈ d, ch ≠ '\x1b' := fun ch hch =>
    hesc ch (by rw [← htile]; simp [hch])
  rw [stripAnsi_output hmA hmB hmC hmD]
  exact htile

theorem c4_amended_witness :
    stripAnsi (greyCode ++ "a ".toList ++ "\x1b[91m".toList ++ "ERROR ".toList ++
      greyCode ++ "b ".toList ++ resetCode ++ "c".toList) = exLine :=
  c4_amended_strip_roundtrip_esc_free exLine fEx _ (by decide)
    (Or.inl (by decide)) (by decide)

/-- C3 counterexample: `exLine` trivially has the same layout as itself, yet
colorizing it through the Format Applier (with the format cached from it)
differs from colorizing it by re-learning: the Learner ends the source span
one past the third run start (absorbing the separator space before the reset
code), while the Applier ends it at the first space at or after source-start,
so the reset code lands one byte earlier. -/
theorem c3_applier_output_differs_from_relearning :
    parse_line_from_scratch exLine = .ok fEx ∧
    parse_line_path_from_general_format exLine (toGeneral fEx) = .ok fExApplied ∧
    colorize_line exLine fExApplied ≠ colorize_line exLine fEx :=
  ⟨by decide, by decide, by decide⟩

/-- C3 amended: for a line with the same first three run starts as the line a
format was learned from, and on which re-learning would succeed, the Format
Applier succeeds and yields the same level classification and the same
timestamp, level, and source-start boundaries as re-learning; only the source
end differs: the Applier ends the source at the first space at or after
source-start (never later than the Learner's `s2 + 1`). -/
theorem c3_amended_applier_agrees_except_source_end :
    ∀ (l0 l : List Char) (f0 f : LineFormat),
      parse_line_from_scratch l0 = .ok f0 →
      parse_line_from_scratch l = .ok f →
      spaceIndices l = spaceIndices l0 →
      ∃ f', parse_line_path_from_general_format l (toGeneral f0) = .ok f' ∧
        f'.log_type = f.log_type ∧ f'.tz_start = f.tz_start ∧ f'.tz_end = f.tz_end ∧
        f'.level_start = f.level_start ∧ f'.level_end = f.level_end ∧
        f'.path_start = f.path_start ∧ f'.path_end ≤ f.path_end ∧
        ∃ u v, byteSlice l f.path_start (byteLen l) = some (u ++ ' ' :: v) ∧
          ' ' ∉ u ∧ f'.path_end = byteLen u + f.path_start := by
  intro l0 l f0 f h0 h hsym
  obtain ⟨t0, t1, t2, sub0, hsi0, _, _, _, g1, g2, g3, g4, g5, _⟩ :=
    scratch_ok_inversion h0
  obtain ⟨s0, s1, s2, sub, hsi, _, hsl, hcl, e1, e2, e3, e4, e5, e6⟩ :=
    scratch_ok_inversion h
  rw [hsi, hsi0] at hsym
  obtain ⟨heq0, heq1, heq2⟩ : s0 = t0 ∧ s1 = t1 ∧ s2 = t2 := by simpa using hsym
  subst heq0
  subst heq1
  subst heq2
  set gf := toGeneral f0 with hgf
  have hgf1 : gf.tz_start = 0 := by simp [hgf, toGeneral, g1]
  have hgf2 : gf.tz_end = s0 + 1 := by simp [hgf, toGeneral, g2]
  have hgf3 : gf.level_start = s0 + 1 := by simp [hgf, toGeneral, g3]
  have hgf4 : gf.level_end = s1 + 1 := by simp [hgf, toGeneral, g4]
  have hgf5 : gf.path_start = s1 + 1 := by simp [hgf, toGeneral, g5]
  have hm1 : s1 ∈ spaceIndices l := by rw [hsi]; simp
  have hm2 : s2 ∈ spaceIndices l := by rw [hsi]; simp
  obtain ⟨p1, r1, hd1, hl1⟩ := spaceIndices_decomp hm1
  obtain ⟨p2, r2, hd2, hl2⟩ := spaceIndices_decomp hm2
  have hpw := spaceIndices_pairwise l
  rw [hsi] at hpw
  simp at hpw
  have h12 : s1 < s2 := hpw.2
  have hsp1 : byteSlice l s1 (s1 + 1) = some [' '] :=
    byteSlice_of_decomp (p := p1) (q := r1)
      (by rw [hd1]; simp) hl1 (by simp [byteLen, charSize_space])
  have happlier_slice : byteSlice l (s0 + 1) (s1 + 1) = some (sub ++ [' ']) :=
    byteSlice_adjacent hsl hsp1
  have hclass : classifyLevel (sub ++ [' ']) = some f.log_type := by
    rw [classifyLevel_append_space]
    exact hcl
  have hline1 := byteLen_space_decomp hd1
  have hbnd1 : ByteBoundary l (s1 + 1) := boundary_after_space hd1 hl1
  have hbndL : ByteBoundary l (byteLen l) := ⟨l, [], by simp, rfl⟩
  obtain ⟨tail, htail⟩ := byteSlice_of_boundaries hbnd1 hbndL (by omega)
  obtain ⟨pre, post, hdec, hp, hlenT, _⟩ := byteSlice_eq_some htail
  have hpost : post = [] := byteLen_eq_zero (by
    have hc := congrArg byteLen hdec
    rw [byteLen_append, byteLen_append] at hc
    omega)
  subst hpost
  have hdec' : l = pre ++ tail := by simpa using hdec
  obtain ⟨m, hm, hmt⟩ := byteLen_prefix_unique hdec' hd2 (by omega)
  have hmem : ' ' ∈ tail := by rw [hmt]; simp
  obtain ⟨j, hj⟩ := findSpace_of_mem hmem
  obtain ⟨u, v, huv, hu, hnot⟩ := findSpace_eq_some hj
  have hres : parse_line_path_from_general_format l gf = .ok
      { log_type := f.log_type, tz_start := gf.tz_start, tz_end := gf.tz_end,
        level_start := gf.level_start, level_end := gf.level_end,
        path_start := gf.path_start, path_end := j + gf.path_start } := by
    rw [parse_line_path_from_general_format, hgf3, hgf4, happlier_slice]
    dsimp only
    rw [hclass]
    dsimp only
    rw [hgf5, htail]
    dsimp only
    rw [hj]
  have hblm : byteLen p2 = byteLen pre + byteLen m := by
    rw [hm, byteLen_append]
  have hjle : j + (s1 + 1) ≤ s2 + 1 := by
    rcases Nat.le_total (byteLen u) (byteLen m) with hle | hle
    · omega
    · obtain ⟨m2, hueq, hseq⟩ := byteLen_prefix_unique hmt huv hle
      cases m2 with
      | nil =>
        have : byteLen u = byteLen m := by
          have := congrArg byteLen hueq
          rw [byteLen_append] at this
          simp [byteLen] at this
          omega
        omega
      | cons a as =>
        exfalso
        rw [List.cons_append, List.cons.injEq] at hseq
        apply hnot
        rw [hueq, ← hseq.1]
        simp
  refine ⟨_, hres, rfl, by rw [hgf1, e1], by rw [hgf2, e2], by rw [hgf3, e3],
    by rw [hgf4, e4], by rw [hgf5, e5], ?_, u, v, ?_, hnot, ?_⟩
  · show j + gf.path_start ≤ f.path_end
    rw [hgf5, e6]
    omega
  · rw [e5, htail, huv]
  · show j + gf.path_start = byteLen u + f.path_start
    rw [hgf5, e5, ← hu]

theorem c3_amended_witness :
    ∃ f', parse_line_path_from_general_format exLine (toGeneral fEx) = .ok f' ∧
      f'.log_type = fEx.log_type ∧ f'.tz_start = fEx.tz_start ∧
      f'.tz_end = fEx.tz_end ∧ f'.level_start = fEx.level_start ∧
      f'.level_end = fEx.level_end ∧ f'.path_start = fEx.path_start ∧
      f'.path_end ≤ fEx.path_end ∧
      ∃ u v, byteSlice exLine fEx.path_start (byteLen exLine) =
          some (u ++ ' ' :: v) ∧ ' ' ∉ u ∧ f'.path_end = byteLen u + fEx.path_start :=
  c3_amended_applier_agrees_except_source_end exLine exLine fEx fEx
    (by decide) (by decide) rfl
